import Mathlib

/-!
Verification of the HyperLogLog sketch and the bitwise / bitstring / range-bitmap
aggregate family of this repository, as a shallow Lean embedding of
`src/common/types/hyperloglog.cpp` and
`src/function/aggregate/distributive/bitagg.cpp`.

Register files and bit buffers are modelled as functions from index to value;
machine integers are modelled as `Nat` / `Int` with explicit wrap-around where
the C++ arithmetic can wrap.  Heap allocations are modelled by threading an
allocation counter and recording, per state, the identifier of the buffer the
state owns.
-/

namespace DuckDB

/-! ### HyperLogLog register file -/

/-- Modelled from the spec: `HyperLogLog::Update(i, v)` is declared in the
header (not among the sources) and applies `k[i] = max(k[i], v)`.  A register
file is a function from register index to register value. -/
def hllUpdate (i v : Nat) (k : Nat → Nat) : Nat → Nat :=
  fun r => if r = i then max (k r) v else k r

/-- Embedding of `HyperLogLog::Merge` (Algorithm 2): for every register index
`i < M`, apply `Update(i, other.k[i])`. -/
def hllMerge (M : Nat) (a b : Nat → Nat) : Nat → Nat :=
  (List.range M).foldl (fun k i => hllUpdate i (b i) k) a

/-- Modelled from the spec: the clamped rank of `InsertElement`.  The hash is
split into the low register-index bits and the residual; for a residual `r` of
a `Q`-bit field the leading-zero count is `Q - Nat.size r`, and
`zeros = leading_zero_count + 1` is clamped to `Q + 1`. -/
def hllRho (M Q h : Nat) : Nat := min (Q - Nat.size (h / M) + 1) (Q + 1)

/-- Modelled from the spec: `HyperLogLog::InsertElement(hash)` updates register
`hash % M` with the clamped leading-zero count of the residual `hash / M`. -/
def hllInsertElement (M Q : Nat) (k : Nat → Nat) (h : Nat) : Nat → Nat :=
  hllUpdate (h % M) (hllRho M Q h) k

/-- Register file obtained by inserting a stream of hashes into a fresh
(all-zero) sketch. -/
def hllBuild (M Q : Nat) (S : List Nat) : Nat → Nat :=
  S.foldl (hllInsertElement M Q) (fun _ => 0)

/-! ### HLLV1 upscale / downscale transform

`HLLV1::FromNew` / `HLLV1::ToNew` are in the sources; the external register
accessors (`get_register` / `set_register`), the register count `num_registers`
and `maximum_zeros()` are modelled from the spec as a plain register file of
`M * mult` slots, with `maxz` standing for `maximum_zeros()`.  The two
cardinality tests of the `FromNew` optimization loop are computed by external
floating-point code; they are abstracted as boolean oracles over the current
V1 register file, so every theorem below holds for every possible outcome of
those tests. -/

/-- Embedding of the anchor pass of `HLLV1::FromNew`: a freshly created dense
V1 image is all zeros, and the first of every `mult` registers receives
`min(new.k[i], maximum_zeros())`. -/
def hllFromNewStart (M mult maxz : Nat) (k : Nat → Nat) : Nat → Nat :=
  fun r => if r % mult = 0 ∧ r / mult < M then min (k (r / mult)) maxz else 0

/-- Embedding of the inner fill of the `FromNew` optimization loop: every
register `i * mult + j` with `1 ≤ j < mult` is set to
`min(min(new.k[i], maximum_zeros()), default_val)`. -/
def hllFillNonAnchors (M mult maxz : Nat) (k : Nat → Nat) (dv : Nat) (regs : Nat → Nat) :
    Nat → Nat :=
  fun r => if r / mult < M ∧ 0 < r % mult then min (min (k (r / mult)) maxz) dv else regs r

/-- Embedding of the `epsilon = 4 .. 1` optimization loop of `HLLV1::FromNew`.
`accept` stands for `IsWithinAcceptableRange(new_hll_count, Count())` and
`overEst` for `Count() > new_hll.Count()` on the current register file;
`default_val` arithmetic wraps as `uint8_t`. -/
def hllFromNewLoop (M mult maxz : Nat) (k : Nat → Nat)
    (accept overEst : (Nat → Nat) → Bool) : Nat → Nat → (Nat → Nat) → (Nat → Nat)
  | 0, _, regs => regs
  | e + 1, dv, regs =>
    let regs' := hllFillNonAnchors M mult maxz k dv regs
    if accept regs' then regs'
    else
      hllFromNewLoop M mult maxz k accept overEst e
        (if overEst regs' then (dv + 256 - (e + 1)) % 256 else (dv + (e + 1)) % 256) regs'

/-- Embedding of the anchor sum accumulated by `HLLV1::FromNew` while writing
the anchors. -/
def hllAnchorSum (M maxz : Nat) (k : Nat → Nat) : Nat :=
  (List.range M).foldl (fun acc i => acc + min (k i) maxz) 0

/-- Embedding of `FromNew`'s starting `default_val`: the anchor sum divided by
`M` (`idx_t` integer division, then a `NumericCast` to `uint8_t`). -/
def hllFromNewDefaultVal (M maxz : Nat) (k : Nat → Nat) : Nat :=
  hllAnchorSum M maxz k / M

/-- Embedding of `HLLV1::FromNew` for a sketch with `Count() > 0` (the
`Count() == 0` early return leaves the image untouched and is excluded by the
claims considered here). -/
def hllFromNew (M mult maxz : Nat) (k : Nat → Nat)
    (accept overEst : (Nat → Nat) → Bool) : Nat → Nat :=
  hllFromNewLoop M mult maxz k accept overEst 4 (hllFromNewDefaultVal M maxz k)
    (hllFromNewStart M mult maxz k)

/-- Embedding of `HLLV1::ToNew` into a freshly deserialized sketch: register
`i` of the new sketch receives the maximum over `j < mult` of V1 register
`i * mult + j` (the `Update` into an all-zero register file yields exactly that
maximum). -/
def hllToNew (mult : Nat) (regs : Nat → Nat) (i : Nat) : Nat :=
  (List.range mult).foldl (fun acc j => max acc (regs (i * mult + j))) 0

/-- Invariant of the V1 register file built by `FromNew`: every anchor slot
holds `min(new.k[i], maximum_zeros())` and every other slot of its group is
bounded by the group's anchor. -/
def hllGoodRegs (M mult maxz : Nat) (k : Nat → Nat) (regs : Nat → Nat) : Prop :=
  (∀ i, i < M → regs (i * mult) = min (k i) maxz) ∧
  (∀ i j, i < M → 0 < j → j < mult → regs (i * mult + j) ≤ min (k i) maxz)

/-! ### Scalar bitwise aggregate state (`BitState<T>`) and the XOR aggregate

The XOR value type is modelled as `Nat` with bitwise XOR; the identities
proved below are width-independent. -/

/-- Embedding of `BitState<T>`: a set flag and a value.  The `value` of an
unset state is uninitialized in C++; the model stores `0` there and no theorem
reads it. -/
structure BitStateI where
  is_set : Bool
  value : Nat
  deriving DecidableEq

/-- Embedding of `BitwiseOperation::Initialize`. -/
def bitStateInit : BitStateI := { is_set := false, value := 0 }

/-- Embedding of `BitwiseOperation::Assign` for scalar states. -/
def bitwiseAssign (st : BitStateI) (input : Nat) : BitStateI :=
  { st with value := input }

/-- Embedding of `BitXorOperation::Execute`: `state->value ^= input`. -/
def bitXorExecute (st : BitStateI) (input : Nat) : BitStateI :=
  { st with value := st.value ^^^ input }

/-- Embedding of `BitwiseOperation::Operation` instantiated with the XOR
`Execute`: assign on first observation, fold with XOR afterwards. -/
def bitXorOperation (st : BitStateI) (input : Nat) : BitStateI :=
  if st.is_set then bitXorExecute st input
  else { bitwiseAssign st input with is_set := true }

/-- Embedding of `BitXorOperation::ConstantOperation`: the
`for (i = 0; i < count; i++)` loop applying `Operation` to the broadcast
scalar each time. -/
def bitXorConstantOperation (st : BitStateI) (input : Nat) (count : Nat) : BitStateI :=
  (List.range count).foldl (fun s _ => bitXorOperation s input) st

/-- Iterated `Operation`: `n` successive `Operation(state, x)` calls, the
reference semantics a constant broadcast must match. -/
def bitXorOperationTimes (st : BitStateI) (input : Nat) : Nat → BitStateI
  | 0 => st
  | n + 1 => bitXorOperation (bitXorOperationTimes st input n) input

/-! ### Bitstring values, allocation accounting and the bind data

A `string_t` value is modelled as its logical bit length, its payload bits
(a function from bit offset to bit), and the identifier of the heap buffer
backing it.  Allocation is modelled by threading a counter: each `new char[]`
returns the current counter value as the fresh buffer id.  Modelled from the
spec: whether a `string_t` is inlined is a function of its byte size alone
(small-string optimization), abstracted as a predicate `isInl` on sizes. -/

/-- Model of a `string_t` bitstring value. -/
structure StrVal where
  nbits : Nat
  bits : Nat → Bool
  ptr : Nat

/-- Byte length of the bitstring buffer as computed by
`BitStringAggOperation::Operation`:
`len = bit_range % 8 ? bit_range / 8 + 1 : bit_range / 8; len++`. -/
def lenBytes (bit_range : Nat) : Nat :=
  (if bit_range % 8 = 0 then bit_range / 8 else bit_range / 8 + 1) + 1

/-- Byte size of a bitstring value (`string_t::GetSize`). -/
def strSize (v : StrVal) : Nat := lenBytes v.nbits

/-- Modelled from the spec: `Bit::SetEmptyBitString(target, bit_range)`
initializes the length header to `bit_range` bits and zeroes the payload.
The buffer id records which allocation backs the value. -/
def setEmptyBitString (bit_range ptr : Nat) : StrVal :=
  { nbits := bit_range, bits := fun _ => false, ptr := ptr }

/-- Modelled from the spec: `Bit::SetBit(buf, off, 1)` sets logical bit
`off`. -/
def setBit (v : StrVal) (off : Nat) : StrVal :=
  { v with bits := fun b => if b = off then true else v.bits b }

/-- Modelled from the spec: `Bit::BitwiseOr(lhs, rhs, rhs)` ors the payloads
in place into `rhs` (equal lengths are a caller contract), leaving `rhs`'s
buffer in place. -/
def bitOrInto (lhs rhs : StrVal) : StrVal :=
  { rhs with bits := fun i => lhs.bits i || rhs.bits i }

/-- Embedding of `BitstringAggBindData` after `GetValueUnsafe`: the resolved
`min` and `max` of the range-bitmap aggregate. -/
structure BindDataM where
  bdmin : Int
  bdmax : Int

/-- Errors thrown by the range-bitmap aggregate: the 1-billion-bit cap, a
value outside `[min, max]`, and (for `hugeint_t`) a `Hugeint::TryCast`
failure. -/
inductive AggErr where
  | rangeTooLarge
  | valueOutside
  | hugeCastFail
  deriving DecidableEq

/-! ### Machine-integer arithmetic of `GetRange` / `Execute`

`GetRange<INPUT_TYPE>` computes `max - min + 1` in the (promoted) input type
and implicitly converts the result to `idx_t` (`uint64_t`).  Types narrower
than 32 bits are promoted to `int`; 32/64-bit types wrap at their own width
(two's complement for the signed ones). -/

/-- Two's-complement wrap of an integer to a signed `w`-bit value. -/
def wrapS (w : Nat) (x : Int) : Int := (x + 2 ^ (w - 1)) % 2 ^ w - 2 ^ (w - 1)

/-- Wrap of an integer to an unsigned `w`-bit value. -/
def wrapU (w : Nat) (x : Int) : Int := x % 2 ^ w

/-- Width after C++ integer promotion. -/
def promoWidth (w : Nat) : Nat := max w 32

/-- Wrap in the promoted arithmetic type of a `w`-bit input type of signedness
`s` (sub-`int` widths promote to signed `int`). -/
def intWrap (w : Nat) (s : Bool) (x : Int) : Int :=
  if w < 32 ∨ s then wrapS (promoWidth w) x else wrapU (promoWidth w) x

/-- Conversion of the wrapped value to `idx_t` (`uint64_t`). -/
def toIdx (x : Int) : Nat := (x % 2 ^ 64).toNat

/-- Embedding of the generic `BitStringAggOperation::GetRange`:
`max - min + 1` in the promoted input type, converted to `idx_t`. -/
def getRange (w : Nat) (s : Bool) (mn mx : Int) : Nat := toIdx (intWrap w s (mx - mn + 1))

/-- Bit offset passed to `Bit::SetBit` by the generic
`BitStringAggOperation::Execute`: `input - min` in the promoted input type,
converted to `idx_t`. -/
def offsetVal (w : Nat) (s : Bool) (mn x : Int) : Nat := toIdx (intWrap w s (x - mn))

/-- Modelled from the spec: for `hugeint_t` the range `max - min + 1` is
computed in the native 128-bit type and narrowed to `idx_t` by
`Hugeint::TryCast`, which fails rather than wraps when the value is negative
or does not fit 64 bits. -/
def hugeRange (mn mx : Int) : Option Nat :=
  let r := wrapS 128 (mx - mn + 1)
  if 0 ≤ r ∧ r < 2 ^ 64 then some r.toNat else none

/-- Modelled from the spec: the `hugeint_t` `Execute` narrows `input - min`
to `idx_t` with `Hugeint::TryCast` and fails on overflow. -/
def hugeOffset (mn x : Int) : Option Nat :=
  let r := wrapS 128 (x - mn)
  if 0 ≤ r ∧ r < 2 ^ 64 then some r.toNat else none

/-! ### Range-bitmap aggregate state and operations -/

/-- Embedding of `BitAggState<T, INPUT_TYPE>`. -/
structure BitAggStateM where
  is_set : Bool
  value : StrVal
  min : Int
  max : Int

/-- Embedding of `BitStringAggOperation::Initialize` (the other fields are
uninitialized in C++; the model zeroes them and no theorem reads them while
`is_set` is false). -/
def initBitAggState : BitAggStateM :=
  { is_set := false, value := { nbits := 0, bits := fun _ => false, ptr := 0 },
    min := 0, max := 0 }

/-- Embedding of the range check and `Execute` call that every
`BitStringAggOperation::Operation` performs after the (possible) first-call
initialization: inside `[state.min, state.max]` the bit at `input - min` is
set, otherwise an out-of-range error is raised with the state left as it is. -/
def bitStringAggCheck (w : Nat) (s : Bool) (bd : BindDataM) (st : BitAggStateM)
    (input : Int) (ctr : Nat) : BitAggStateM × Nat × Option AggErr :=
  if st.min ≤ input ∧ input ≤ st.max then
    ({ st with value := setBit st.value (offsetVal w s bd.bdmin input) }, ctr, none)
  else (st, ctr, some AggErr.valueOutside)

/-- Embedding of `BitStringAggOperation::Operation` for the non-`hugeint_t`
input types.  On the first call the state receives `min`/`max` from the bind
data and a freshly allocated empty bitmap of `GetRange(min, max)` bits —
unless that range exceeds 1,000,000,000 bits, in which case the operation
fails before touching the state.  The returned `Nat` is the allocation
counter after the call. -/
def bitStringAggOperation (w : Nat) (s : Bool) (bd : BindDataM) (st : BitAggStateM)
    (input : Int) (ctr : Nat) : BitAggStateM × Nat × Option AggErr :=
  if st.is_set then bitStringAggCheck w s bd st input ctr
  else
    let r := getRange w s bd.bdmin bd.bdmax
    if 1000000000 < r then (st, ctr, some AggErr.rangeTooLarge)
    else
      bitStringAggCheck w s bd
        { is_set := true, value := setEmptyBitString r ctr, min := bd.bdmin, max := bd.bdmax }
        input (ctr + 1)

/-- Embedding of the range check and `hugeint_t` `Execute` performed after
the (possible) first-call initialization. -/
def bitStringAggCheckHuge (bd : BindDataM) (st : BitAggStateM) (input : Int) (ctr : Nat) :
    BitAggStateM × Nat × Option AggErr :=
  if st.min ≤ input ∧ input ≤ st.max then
    match hugeOffset bd.bdmin input with
    | some off => ({ st with value := setBit st.value off }, ctr, none)
    | none => (st, ctr, some AggErr.hugeCastFail)
  else (st, ctr, some AggErr.valueOutside)

/-- Embedding of `BitStringAggOperation::Operation` for `hugeint_t` inputs,
using the `GetRange` specialization that narrows through `Hugeint::TryCast`. -/
def bitStringAggOperationHuge (bd : BindDataM) (st : BitAggStateM) (input : Int) (ctr : Nat) :
    BitAggStateM × Nat × Option AggErr :=
  if st.is_set then bitStringAggCheckHuge bd st input ctr
  else
    match hugeRange bd.bdmin bd.bdmax with
    | none => (st, ctr, some AggErr.hugeCastFail)
    | some r =>
      if 1000000000 < r then (st, ctr, some AggErr.rangeTooLarge)
      else
        bitStringAggCheckHuge bd
          { is_set := true, value := setEmptyBitString r ctr, min := bd.bdmin, max := bd.bdmax }
          input (ctr + 1)

/-- One `Operation` call per element of the input list, aborting at the first
thrown error (exception propagation). -/
def bitStringAggRun (w : Nat) (s : Bool) (bd : BindDataM) :
    List Int → BitAggStateM → Nat → Except AggErr (BitAggStateM × Nat)
  | [], st, ctr => .ok (st, ctr)
  | x :: xs, st, ctr =>
    match bitStringAggOperation w s bd st x ctr with
    | (st', ctr', none) => bitStringAggRun w s bd xs st' ctr'
    | (_, _, some e) => .error e

/-- Embedding of `BitStringAggOperation::Finalize`: NULL (`none`) for an unset
state, the state's bitstring otherwise. -/
def bitStringAggFinalize (st : BitAggStateM) : Option StrVal :=
  if st.is_set then some st.value else none

/-- Embedding of `BitStringAggOperation::Destroy`: the list of buffer ids
released — `state->value`'s buffer exactly when the state is set and the
value is not inlined. -/
def bitAggDestroyFreed (isInl : Nat → Bool) (st : BitAggStateM) : List Nat :=
  if st.is_set ∧ isInl (strSize st.value) = false then [st.value.ptr] else []

/-- Embedding of `BitStringAggOperation::Assign`: an inlined input is copied
by value, a non-inlined input is copied into a freshly allocated buffer. -/
def bitStringAggAssign (isInl : Nat → Bool) (st : BitAggStateM) (input : StrVal) (ctr : Nat) :
    BitAggStateM × Nat :=
  if isInl (strSize input) then ({ st with value := input }, ctr)
  else ({ st with value := { input with ptr := ctr } }, ctr + 1)

/-- Embedding of `BitStringAggOperation::Combine`.  The result is
`(source, target, counter)` after the call; the C++ source is `const` and
never written. -/
def bitStringAggCombine (isInl : Nat → Bool) (source target : BitAggStateM) (ctr : Nat) :
    BitAggStateM × BitAggStateM × Nat :=
  if source.is_set = false then (source, target, ctr)
  else if target.is_set = false then
    let p := bitStringAggAssign isInl target source.value ctr
    (source, { p.1 with is_set := true }, p.2)
  else (source, { target with value := bitOrInto source.value target.value }, ctr)

/-! ### Bitstring bitwise aggregate (`BitState<string_t>` family) -/

/-- Embedding of `BitState<string_t>`. -/
structure BitStrStateM where
  is_set : Bool
  value : StrVal

/-- Embedding of `BitStringBitwiseOperation::Assign`: identical buffer
discipline to the range-bitmap `Assign`. -/
def bitStringBitwiseAssign (isInl : Nat → Bool) (st : BitStrStateM) (input : StrVal)
    (ctr : Nat) : BitStrStateM × Nat :=
  if isInl (strSize input) then ({ st with value := input }, ctr)
  else ({ st with value := { input with ptr := ctr } }, ctr + 1)

/-- Embedding of `BitwiseOperation::Combine` as instantiated for the
bitstring aggregates: unset source is a no-op, unset target adopts the source
value through `Assign`, otherwise `OP::Execute` folds the source value into
the target (the concrete `Bit::BitwiseAnd/Or/Xor` is abstracted as `exec`). -/
def bitStringBitwiseCombine (isInl : Nat → Bool) (exec : StrVal → StrVal → StrVal)
    (source target : BitStrStateM) (ctr : Nat) : BitStrStateM × BitStrStateM × Nat :=
  if source.is_set = false then (source, target, ctr)
  else if target.is_set = false then
    let p := bitStringBitwiseAssign isInl target source.value ctr
    (source, { p.1 with is_set := true }, p.2)
  else (source, { target with value := exec source.value target.value }, ctr)

/-- Embedding of `BitStringBitwiseOperation::Destroy`. -/
def bitStrDestroyFreed (isInl : Nat → Bool) (st : BitStrStateM) : List Nat :=
  if st.is_set ∧ isInl (strSize st.value) = false then [st.value.ptr] else []

/-! ### Statistics propagation of the 1-argument `bitstring_agg` -/

/-- Modelled from the spec: the numeric min/max statistics of the child
column; `none` stands for a NULL `Value`. -/
structure NumStatsM where
  statsMin : Option Int
  statsMax : Option Int

/-- Modelled from the spec: node statistics carrying the
`has_max_cardinality` flag. -/
structure NodeStatsM where
  has_max_cardinality : Bool

/-- Bind data as filled by statistics propagation (`Value` fields, `none` for
NULL). -/
structure BitstringAggBindDataS where
  bdMin : Option Int
  bdMax : Option Int

/-- Error message of the binder exception thrown by
`BitstringPropagateStats`. -/
def statsErrMsg : String :=
  "Could not retrieve required statistics. Alternatively, try by providing the statistics explicitly: BITSTRING_AGG(col, min, max) "

/-- Embedding of `BitstringPropagateStats`: requires child statistics, node
statistics and a bounded cardinality; NULL min/max statistics leave the bind
data untouched; otherwise min and max are copied into the bind data. -/
def bitstringPropagateStats (child : Option NumStatsM) (node : Option NodeStatsM)
    (bind : BitstringAggBindDataS) : Except String BitstringAggBindDataS :=
  match child, node with
  | some cs, some ns =>
    if ns.has_max_cardinality then
      match cs.statsMin, cs.statsMax with
      | some mn, some mx => .ok { bdMin := some mn, bdMax := some mx }
      | _, _ => .ok bind
    else .error statsErrMsg
  | _, _ => .error statsErrMsg

/-! ### Helper lemmas on group indexing and folded maxima -/

theorem groupDiv (i j mult : Nat) (hjm : j < mult) : (i * mult + j) / mult = i := by
  have hmult : 0 < mult := lt_of_le_of_lt (Nat.zero_le j) hjm
  rw [Nat.add_comm, Nat.add_mul_div_right _ _ hmult, Nat.div_eq_of_lt hjm, Nat.zero_add]

theorem groupMod (i j mult : Nat) (hjm : j < mult) : (i * mult + j) % mult = j := by
  rw [Nat.add_comm, Nat.add_mul_mod_self_right, Nat.mod_eq_of_lt hjm]

theorem hllFill_anchor (M mult maxz : Nat) (k : Nat → Nat) (dv : Nat) (regs : Nat → Nat)
    (i : Nat) : hllFillNonAnchors M mult maxz k dv regs (i * mult) = regs (i * mult) := by
  unfold hllFillNonAnchors
  simp [Nat.mul_mod_left]

theorem hllFill_nonanchor (M mult maxz : Nat) (k : Nat → Nat) (dv : Nat) (regs : Nat → Nat)
    (i j : Nat) (hi : i < M) (hj : 0 < j) (hjm : j < mult) :
    hllFillNonAnchors M mult maxz k dv regs (i * mult + j) = min (min (k i) maxz) dv := by
  unfold hllFillNonAnchors
  rw [groupDiv i j mult hjm, groupMod i j mult hjm]
  simp [hi, hj]

theorem hllFill_good (M mult maxz : Nat) (k : Nat → Nat) (dv : Nat) (regs : Nat → Nat)
    (h : hllGoodRegs M mult maxz k regs) :
    hllGoodRegs M mult maxz k (hllFillNonAnchors M mult maxz k dv regs) := by
  constructor
  · intro i hi
    rw [hllFill_anchor]
    exact h.1 i hi
  · intro i j hi hj hjm
    rw [hllFill_nonanchor M mult maxz k dv regs i j hi hj hjm]
    exact min_le_left _ _

theorem hllLoop_good (M mult maxz : Nat) (k : Nat → Nat)
    (accept overEst : (Nat → Nat) → Bool) (e : Nat) :
    ∀ (dv : Nat) (regs : Nat → Nat), hllGoodRegs M mult maxz k regs →
      hllGoodRegs M mult maxz k (hllFromNewLoop M mult maxz k accept overEst e dv regs) := by
  induction e with
  | zero =>
    intro dv regs h
    simpa [hllFromNewLoop] using h
  | succ e ih =>
    intro dv regs h
    rw [hllFromNewLoop]
    have h' := hllFill_good M mult maxz k dv regs h
    by_cases hacc : accept (hllFillNonAnchors M mult maxz k dv regs)
    · simpa [hacc] using h'
    · simpa [hacc] using ih _ _ h'

theorem hllStart_good (M mult maxz : Nat) (k : Nat → Nat) (hmult : 0 < mult) :
    hllGoodRegs M mult maxz k (hllFromNewStart M mult maxz k) := by
  constructor
  · intro i hi
    unfold hllFromNewStart
    rw [Nat.mul_mod_left, Nat.mul_div_cancel i hmult]
    simp [hi]
  · intro i j hi hj hjm
    unfold hllFromNewStart
    rw [groupMod i j mult hjm]
    have hj0 : j ≠ 0 := Nat.pos_iff_ne_zero.mp hj
    simp [hj0]

theorem foldlMax_le (g : Nat → Nat) (c : Nat) :
    ∀ (l : List Nat) (a : Nat), a ≤ c → (∀ j ∈ l, g j ≤ c) →
      l.foldl (fun acc j => max acc (g j)) a ≤ c := by
  intro l
  induction l with
  | nil => intro a ha _; simpa using ha
  | cons x xs ih =>
    intro a ha hl
    simp only [List.foldl_cons]
    exact ih (max a (g x)) (max_le ha (hl x (List.mem_cons_self x xs)))
      (fun j hj => hl j (List.mem_cons_of_mem x hj))

theorem foldlMax_init_le (g : Nat → Nat) :
    ∀ (l : List Nat) (a : Nat), a ≤ l.foldl (fun acc j => max acc (g j)) a := by
  intro l
  induction l with
  | nil => intro a; simp
  | cons x xs ih =>
    intro a
    simp only [List.foldl_cons]
    exact le_trans (le_max_left a (g x)) (ih (max a (g x)))

theorem foldlMax_mem_le (g : Nat → Nat) :
    ∀ (l : List Nat) (j : Nat), j ∈ l → ∀ (a : Nat),
      g j ≤ l.foldl (fun acc j => max acc (g j)) a := by
  intro l
  induction l with
  | nil => intro j hj; exact absurd hj (List.not_mem_nil j)
  | cons x xs ih =>
    intro j hj a
    simp only [List.foldl_cons]
    rcases List.mem_cons.mp hj with hx | hxs
    · subst hx
      exact le_trans (le_max_right a (g j)) (foldlMax_init_le g xs (max a (g j)))
    · exact ih j hxs (max a (g x))

/-! ### Claim C2 -/

/-- C2: V2 → V1 → V2 exact recovery.  For a sketch with `Count() > 0`,
building a V1 image via `HLLV1::FromNew` and downscaling it back with
`HLLV1::ToNew` recovers the original register array at every index `i < M`,
whatever the outcomes of the external cardinality tests of the optimization
loop — provided every register value fits `maximum_zeros()`, which is what the
spec's "lossless anchor" asserts. -/
theorem hll_v2_to_v1_to_v2_recovery (M mult maxz : Nat) (k : Nat → Nat)
    (accept overEst : (Nat → Nat) → Bool) (hmult : 0 < mult)
    (hk : ∀ i, i < M → k i ≤ maxz) :
    ∀ i, i < M → hllToNew mult (hllFromNew M mult maxz k accept overEst) i = k i := by
  intro i hi
  have hgood : hllGoodRegs M mult maxz k (hllFromNew M mult maxz k accept overEst) := by
    unfold hllFromNew
    exact hllLoop_good M mult maxz k accept overEst 4 _ _ (hllStart_good M mult maxz k hmult)
  set regs := hllFromNew M mult maxz k accept overEst with hregs
  have hA : regs (i * mult) = min (k i) maxz := hgood.1 i hi
  have hmin : min (k i) maxz = k i := min_eq_left (hk i hi)
  unfold hllToNew
  apply le_antisymm
  · apply foldlMax_le
    · exact Nat.zero_le _
    · intro j hj
      rcases Nat.eq_zero_or_pos j with hj0 | hjpos
      · subst hj0
        rw [Nat.add_zero, hA, hmin]
      · rw [← hmin]
        exact hgood.2 i j hi hjpos (List.mem_range.mp hj)
  · have h0 : (0 : Nat) ∈ List.range mult := List.mem_range.mpr hmult
    have := foldlMax_mem_le (fun j => regs (i * mult + j)) (List.range mult) 0 h0 0
    simpa [hA, hmin] using this

/-- Witness for C2 at `M = 2`, `mult = 2`, `maxz = 10`, constant registers. -/
theorem hll_v2_to_v1_to_v2_recovery_witness :
    hllToNew 2 (hllFromNew 2 2 10 (fun _ => 1) (fun _ => true) (fun _ => false)) 0 = 1 :=
  hll_v2_to_v1_to_v2_recovery 2 2 10 (fun _ => 1) (fun _ => true) (fun _ => false)
    (by decide) (fun _ _ => by norm_num) 0 (by decide)

/-! ### Claim C4 -/

theorem hllMerge_fold (b : Nat → Nat) :
    ∀ (l : List Nat) (a : Nat → Nat) (i : Nat),
      (l.foldl (fun k j => hllUpdate j (b j) k) a) i =
        if i ∈ l then max (a i) (b i) else a i := by
  intro l
  induction l with
  | nil => intro a i; simp
  | cons x xs ih =>
    intro a i
    simp only [List.foldl_cons]
    rw [ih (hllUpdate x (b x) a) i]
    by_cases hx : i = x
    · subst hx
      by_cases hxs : i ∈ xs <;> simp [hllUpdate, hxs, max_assoc, max_self]
    · by_cases hxs : i ∈ xs <;> simp [hllUpdate, hx, hxs]

theorem hllBuild_scalar (M Q : Nat) :
    ∀ (S : List Nat) (k : Nat → Nat) (i : Nat),
      (S.foldl (hllInsertElement M Q) k) i =
        S.foldl (fun acc h => if h % M = i then max acc (hllRho M Q h) else acc) (k i) := by
  intro S
  induction S with
  | nil => intro k i; simp
  | cons h S ih =>
    intro k i
    simp only [List.foldl_cons]
    rw [ih (hllInsertElement M Q k h) i]
    by_cases hc : h % M = i
    · simp [hllInsertElement, hllUpdate, hc]
    · have hc' : ¬ i = h % M := fun hh => hc hh.symm
      simp [hllInsertElement, hllUpdate, hc, hc']

theorem hllBuild_scalar0 (M Q : Nat) (S : List Nat) (i : Nat) :
    hllBuild M Q S i =
      S.foldl (fun acc h => if h % M = i then max acc (hllRho M Q h) else acc) 0 :=
  hllBuild_scalar M Q S (fun _ => 0) i

theorem hllScalar_max (M Q : Nat) (i : Nat) :
    ∀ (S : List Nat) (x y : Nat),
      S.foldl (fun acc h => if h % M = i then max acc (hllRho M Q h) else acc) (max x y) =
        max x (S.foldl (fun acc h => if h % M = i then max acc (hllRho M Q h) else acc) y) := by
  intro S
  induction S with
  | nil => intro x y; simp
  | cons h S ih =>
    intro x y
    simp only [List.foldl_cons]
    by_cases hc : h % M = i
    · rw [if_pos hc, if_pos hc, max_assoc]
      exact ih x (max y (hllRho M Q h))
    · rw [if_neg hc, if_neg hc]
      exact ih x y

/-- C4: `Merge` is the pointwise register maximum, and merging sketches built
from two streams agrees register-for-register with inserting both streams into
a single fresh sketch. -/
theorem hll_merge_pointwise_max_and_union (M Q : Nat) :
    (∀ (a b : Nat → Nat) (i : Nat), i < M → hllMerge M a b i = max (a i) (b i)) ∧
    (∀ (S1 S2 : List Nat) (i : Nat), i < M →
      hllMerge M (hllBuild M Q S1) (hllBuild M Q S2) i = hllBuild M Q (S1 ++ S2) i) := by
  have hmerge : ∀ (a b : Nat → Nat) (i : Nat), i < M → hllMerge M a b i = max (a i) (b i) := by
    intro a b i hi
    unfold hllMerge
    rw [hllMerge_fold b (List.range M) a i]
    simp [List.mem_range.mpr hi]
  refine ⟨hmerge, ?_⟩
  intro S1 S2 i hi
  rw [hmerge _ _ i hi]
  have e3 : hllBuild M Q (S1 ++ S2) i =
      S2.foldl (fun acc h => if h % M = i then max acc (hllRho M Q h) else acc)
        (hllBuild M Q S1 i) := by
    unfold hllBuild
    rw [List.foldl_append]
    exact hllBuild_scalar M Q S2 _ i
  rw [e3, hllBuild_scalar0 M Q S1 i, hllBuild_scalar0 M Q S2 i]
  have h := hllScalar_max M Q i S2
    (S1.foldl (fun acc h => if h % M = i then max acc (hllRho M Q h) else acc) 0) 0
  rw [Nat.max_zero] at h
  exact h.symm

/-- Witness for C4 at `M = 4`, `Q = 3` and concrete streams. -/
theorem hll_merge_pointwise_max_and_union_witness :
    hllMerge 4 (hllBuild 4 3 [1, 2]) (hllBuild 4 3 [3]) 1 = hllBuild 4 3 ([1, 2] ++ [3]) 1 :=
  (hll_merge_pointwise_max_and_union 4 3).2 [1, 2] [3] 1 (by decide)

/-! ### Claim C7 -/

theorem hllAnchorSum_eq (maxz : Nat) (k : Nat → Nat) :
    ∀ M, hllAnchorSum M maxz k = ∑ i ∈ Finset.range M, min (k i) maxz := by
  intro M
  induction M with
  | zero => simp [hllAnchorSum]
  | succ M ih =>
    unfold hllAnchorSum
    rw [List.range_succ, List.foldl_append]
    simp only [List.foldl_cons, List.foldl_nil]
    rw [Finset.sum_range_succ, ← ih]
    rfl

theorem hllAnchorSum_le (M maxz : Nat) (k : Nat → Nat) : hllAnchorSum M maxz k ≤ M * maxz := by
  induction M with
  | zero => simp [hllAnchorSum]
  | succ M ih =>
    unfold hllAnchorSum
    rw [List.range_succ, List.foldl_append]
    simp only [List.foldl_cons, List.foldl_nil]
    have h1 : (List.range M).foldl (fun acc i => acc + min (k i) maxz) 0 = hllAnchorSum M maxz k := rfl
    rw [h1, Nat.succ_mul]
    exact Nat.add_le_add ih (min_le_right _ _)

/-- C7: the starting `default_val` of the V2 → V1 transform is the integer
average of the `M` anchor values `min(new.k[i], maximum_zeros())`, and it fits
an 8-bit unsigned integer (so the `NumericCast` is exact). -/
theorem hll_fromnew_default_is_anchor_average (M maxz : Nat) (k : Nat → Nat)
    (hM : 0 < M) (hz : maxz ≤ 255) :
    hllFromNewDefaultVal M maxz k = (∑ i ∈ Finset.range M, min (k i) maxz) / M ∧
    hllFromNewDefaultVal M maxz k ≤ 255 := by
  constructor
  · unfold hllFromNewDefaultVal
    rw [hllAnchorSum_eq]
  · unfold hllFromNewDefaultVal
    calc hllAnchorSum M maxz k / M ≤ M * maxz / M :=
          Nat.div_le_div_right (hllAnchorSum_le M maxz k)
      _ = maxz := Nat.mul_div_cancel_left maxz hM
      _ ≤ 255 := hz

/-- Witness for C7 at `M = 2`, `maxz = 10`. -/
theorem hll_fromnew_default_is_anchor_average_witness :
    hllFromNewDefaultVal 2 10 (fun i => i) = (∑ i ∈ Finset.range 2, min i 10) / 2 ∧
    hllFromNewDefaultVal 2 10 (fun i => i) ≤ 255 :=
  hll_fromnew_default_is_anchor_average 2 10 (fun i => i) (by decide) (by decide)

/-! ### Claim C5 -/

theorem bitXorConstEqTimes (x : Nat) :
    ∀ (n : Nat) (st : BitStateI),
      bitXorConstantOperation st x n = bitXorOperationTimes st x n := by
  intro n
  induction n with
  | zero => intro st; rfl
  | succ n ih =>
    intro st
    unfold bitXorConstantOperation
    rw [List.range_succ, List.foldl_append]
    simp only [List.foldl_cons, List.foldl_nil]
    have h1 : (List.range n).foldl (fun s _ => bitXorOperation s x) st =
        bitXorOperationTimes st x n := ih st
    rw [h1, bitXorOperationTimes]

theorem bitXorUnsetOdd (x : Nat) :
    ∀ (m : Nat),
      bitXorOperationTimes bitStateInit x (2 * m + 1) = { is_set := true, value := x } := by
  intro m
  induction m with
  | zero => rfl
  | succ m ih =>
    have h : 2 * (m + 1) + 1 = (2 * m + 1) + 1 + 1 := by ring
    rw [h, bitXorOperationTimes, bitXorOperationTimes, ih]
    simp [bitXorOperation, bitXorExecute, Nat.xor_self, Nat.zero_xor]

/-- C5: `bit_xor`'s `ConstantOperation(state, x, n)` equals `n` successive
`Operation(state, x)` calls; for odd `n` an unset state ends holding `x`
(`5 ^ 5 ^ 5 = 5` at `n = 3`), and a state already holding `3` broadcast `5`
three times ends holding `3 ^ 5 ^ 5 ^ 5 = 6`. -/
theorem bit_xor_constant_broadcast :
    (∀ (st : BitStateI) (x n : Nat),
      bitXorConstantOperation st x n = bitXorOperationTimes st x n) ∧
    (∀ (x n : Nat), n % 2 = 1 →
      bitXorConstantOperation bitStateInit x n = { is_set := true, value := x }) ∧
    bitXorConstantOperation bitStateInit 5 3 = { is_set := true, value := 5 } ∧
    bitXorConstantOperation { is_set := true, value := 3 } 5 3 =
      { is_set := true, value := 6 } := by
  refine ⟨fun st x n => bitXorConstEqTimes x n st, ?_, by decide, by decide⟩
  intro x n hn
  have hn' : n = 2 * (n / 2) + 1 := by omega
  rw [hn', bitXorConstEqTimes x _ bitStateInit, bitXorUnsetOdd x (n / 2)]

/-- Witness for C5: broadcast `7` five times into an unset state. -/
theorem bit_xor_constant_broadcast_witness :
    bitXorConstantOperation bitStateInit 7 5 = { is_set := true, value := 7 } :=
  bit_xor_constant_broadcast.2.1 7 5 (by decide)

/-! ### Claim C8 -/

theorem statsErrMsg_split :
    statsErrMsg = "" ++ "Could not retrieve required statistics" ++
      ". Alternatively, try by providing the statistics explicitly: BITSTRING_AGG(col, min, max) " := by
  rfl

/-- C8: binding the 1-argument `bitstring_agg` raises the binder error whose
message contains "Could not retrieve required statistics" (directing the
caller to the 3-argument form) whenever child statistics are missing, node
statistics are missing, or the cardinality is unbounded; with numeric min/max
statistics available they are copied into the bind data and no error is
raised. -/
theorem bitstring_propagate_stats_spec :
    (∀ (child : Option NumStatsM) (node : Option NodeStatsM) (bind : BitstringAggBindDataS),
      child = none ∨ node = none ∨ node = some { has_max_cardinality := false } →
      ∃ s1 s2, bitstringPropagateStats child node bind =
        .error (s1 ++ "Could not retrieve required statistics" ++ s2)) ∧
    (∀ (cs : NumStatsM) (ns : NodeStatsM) (bind : BitstringAggBindDataS) (mn mx : Int),
      ns.has_max_cardinality = true → cs.statsMin = some mn → cs.statsMax = some mx →
      bitstringPropagateStats (some cs) (some ns) bind =
        .ok { bdMin := some mn, bdMax := some mx }) := by
  constructor
  · intro child node bind h
    refine ⟨"", ". Alternatively, try by providing the statistics explicitly: BITSTRING_AGG(col, min, max) ", ?_⟩
    rw [← statsErrMsg_split]
    rcases h with h | h | h
    · subst h
      cases node with
      | none => rfl
      | some ns => rfl
    · subst h
      cases child with
      | none => rfl
      | some cs => rfl
    · subst h
      cases child with
      | none => rfl
      | some cs => simp [bitstringPropagateStats]
  · intro cs ns bind mn mx h1 h2 h3
    simp [bitstringPropagateStats, h1, h2, h3]

/-- Witness for C8: missing child statistics raise the binder error. -/
theorem bitstring_propagate_stats_spec_witness :
    ∃ s1 s2, bitstringPropagateStats none none { bdMin := none, bdMax := none } =
      .error (s1 ++ "Could not retrieve required statistics" ++ s2) :=
  bitstring_propagate_stats_spec.1 none none { bdMin := none, bdMax := none } (Or.inl rfl)

/-! ### Exactness of the range / offset arithmetic in the regime of the claims -/

theorem intWrap_eq_self (w : Nat) (s : Bool) {x : Int} (h0 : 0 ≤ x) (hx : x < 2 ^ 31) :
    intWrap w s x = x := by
  have haw : 31 ≤ promoWidth w - 1 := by
    unfold promoWidth
    omega
  have hle : (2 : Int) ^ 31 ≤ 2 ^ (promoWidth w - 1) :=
    pow_le_pow_right₀ (by norm_num) haw
  have hx' : x < 2 ^ (promoWidth w - 1) := lt_of_lt_of_le hx hle
  have hpos : (0 : Int) < 2 ^ (promoWidth w - 1) := by positivity
  have hsucc : 2 ^ (promoWidth w - 1) * 2 = (2 : Int) ^ promoWidth w := by
    rw [← pow_succ]
    congr 1
    unfold promoWidth
    omega
  unfold intWrap
  by_cases hc : w < 32 ∨ s = true
  · rw [if_pos hc]
    unfold wrapS
    have h1 : 0 ≤ x + 2 ^ (promoWidth w - 1) := by omega
    have h2 : x + 2 ^ (promoWidth w - 1) < 2 ^ promoWidth w := by omega
    rw [Int.emod_eq_of_lt h1 h2]
    omega
  · rw [if_neg hc]
    unfold wrapU
    have h2 : x < 2 ^ promoWidth w := by omega
    exact Int.emod_eq_of_lt h0 h2

theorem toIdx_small {x : Int} (h0 : 0 ≤ x) (hx : x < 2 ^ 31) : toIdx x = x.toNat := by
  unfold toIdx
  rw [Int.emod_eq_of_lt h0 (lt_of_lt_of_le hx (by norm_num))]

theorem getRange_exact (w : Nat) (s : Bool) {mn mx : Int}
    (h1 : 0 < mx - mn + 1) (h2 : mx - mn + 1 ≤ 1000000000) :
    getRange w s mn mx = (mx - mn + 1).toNat := by
  have hlt : mx - mn + 1 < 2 ^ 31 := by
    have h31 : (2 : Int) ^ 31 = 2147483648 := by norm_num
    omega
  unfold getRange
  rw [intWrap_eq_self w s (le_of_lt h1) hlt, toIdx_small (le_of_lt h1) hlt]

theorem offsetVal_exact (w : Nat) (s : Bool) {mn mx x : Int}
    (hmn : mn ≤ x) (hmx : x ≤ mx) (h2 : mx - mn + 1 ≤ 1000000000) :
    offsetVal w s mn x = (x - mn).toNat := by
  have h0 : 0 ≤ x - mn := by omega
  have hlt : x - mn < 2 ^ 31 := by
    have h31 : (2 : Int) ^ 31 = 2147483648 := by norm_num
    omega
  unfold offsetVal
  rw [intWrap_eq_self w s h0 hlt, toIdx_small h0 hlt]

/-! ### Claim C6 -/

/-- C6: the range-bitmap `Operation` raises an out-of-range error exactly when
the computed range `max - min + 1` exceeds 1,000,000,000 bits, the input lies
outside `[min, max]`, or — for 128-bit inputs — `max - min + 1` or
`input - min` fails to narrow to the index type; in all other cases it
succeeds.  A state with `is_set = true` is assumed to have been initialized by
a previous successful first call of the same bound expression. -/
theorem bitstring_agg_operation_error_iff :
    (∀ (w : Nat) (s : Bool) (bd : BindDataM) (st : BitAggStateM) (x : Int) (ctr : Nat),
      (st.is_set = true → st.min = bd.bdmin ∧ st.max = bd.bdmax ∧
        getRange w s bd.bdmin bd.bdmax ≤ 1000000000) →
      ((bitStringAggOperation w s bd st x ctr).2.2.isSome = true ↔
        1000000000 < getRange w s bd.bdmin bd.bdmax ∨ x < bd.bdmin ∨ bd.bdmax < x)) ∧
    (∀ (bd : BindDataM) (st : BitAggStateM) (x : Int) (ctr : Nat),
      (st.is_set = true → st.min = bd.bdmin ∧ st.max = bd.bdmax ∧
        ∃ r, hugeRange bd.bdmin bd.bdmax = some r ∧ r ≤ 1000000000) →
      ((bitStringAggOperationHuge bd st x ctr).2.2.isSome = true ↔
        hugeRange bd.bdmin bd.bdmax = none ∨
        (∃ r, hugeRange bd.bdmin bd.bdmax = some r ∧ 1000000000 < r) ∨
        x < bd.bdmin ∨ bd.bdmax < x ∨ hugeOffset bd.bdmin x = none)) := by
  constructor
  · intro w s bd st x ctr hreach
    unfold bitStringAggOperation bitStringAggCheck
    by_cases hset : st.is_set = true
    · obtain ⟨hmn, hmx, hcap⟩ := hreach hset
      rw [if_pos hset, hmn, hmx]
      by_cases hin : bd.bdmin ≤ x ∧ x ≤ bd.bdmax
      · rw [if_pos hin]
        refine iff_of_false (by simp) ?_
        obtain ⟨hx1, hx2⟩ := hin
        rintro (h | h | h)
        · exact Nat.not_lt.mpr hcap h
        · omega
        · omega
      · rw [if_neg hin]
        refine iff_of_true (by simp) ?_
        rcases not_and_or.mp hin with h | h
        · exact Or.inr (Or.inl (by omega))
        · exact Or.inr (Or.inr (by omega))
    · rw [if_neg hset]
      by_cases hcap : 1000000000 < getRange w s bd.bdmin bd.bdmax
      · rw [if_pos hcap]
        exact iff_of_true (by simp) (Or.inl hcap)
      · rw [if_neg hcap]
        by_cases hin : bd.bdmin ≤ x ∧ x ≤ bd.bdmax
        · rw [if_pos hin]
          refine iff_of_false (by simp) ?_
          obtain ⟨hx1, hx2⟩ := hin
          rintro (h | h | h)
          · exact hcap h
          · omega
          · omega
        · rw [if_neg hin]
          refine iff_of_true (by simp) ?_
          rcases not_and_or.mp hin with h | h
          · exact Or.inr (Or.inl (by omega))
          · exact Or.inr (Or.inr (by omega))
  · intro bd st x ctr hreach
    by_cases hset : st.is_set = true
    · obtain ⟨hmn, hmx, r0, hr0, hcap⟩ := hreach hset
      by_cases hin : bd.bdmin ≤ x ∧ x ≤ bd.bdmax
      · obtain ⟨hx1, hx2⟩ := hin
        rcases ho : hugeOffset bd.bdmin x with _ | off
        · have he : (bitStringAggOperationHuge bd st x ctr).2.2 = some AggErr.hugeCastFail := by
            unfold bitStringAggOperationHuge bitStringAggCheckHuge
            rw [if_pos hset, hmn, hmx, if_pos ⟨hx1, hx2⟩]
            simp only [ho]
          rw [he]
          exact iff_of_true (by simp) (Or.inr (Or.inr (Or.inr (Or.inr rfl))))
        · have he : (bitStringAggOperationHuge bd st x ctr).2.2 = none := by
            unfold bitStringAggOperationHuge bitStringAggCheckHuge
            rw [if_pos hset, hmn, hmx, if_pos ⟨hx1, hx2⟩]
            simp only [ho]
          rw [he]
          refine iff_of_false (by simp) ?_
          rintro (h | ⟨r, hr, hgt⟩ | h | h | h)
          · rw [h] at hr0; exact Option.noConfusion hr0
          · injection hr0.symm.trans hr with hrr; omega
          · omega
          · omega
          · exact Option.noConfusion h
      · have he : (bitStringAggOperationHuge bd st x ctr).2.2 = some AggErr.valueOutside := by
          unfold bitStringAggOperationHuge bitStringAggCheckHuge
          rw [if_pos hset, hmn, hmx, if_neg hin]
        rw [he]
        refine iff_of_true (by simp) ?_
        rcases not_and_or.mp hin with h | h
        · exact Or.inr (Or.inr (Or.inl (by omega)))
        · exact Or.inr (Or.inr (Or.inr (Or.inl (by omega))))
    · rcases hr : hugeRange bd.bdmin bd.bdmax with _ | r
      · have he : (bitStringAggOperationHuge bd st x ctr).2.2 = some AggErr.hugeCastFail := by
          unfold bitStringAggOperationHuge
          rw [if_neg hset]
          simp only [hr]
        rw [he]
        exact iff_of_true (by simp) (Or.inl rfl)
      · by_cases hcap : 1000000000 < r
        · have he : (bitStringAggOperationHuge bd st x ctr).2.2 = some AggErr.rangeTooLarge := by
            unfold bitStringAggOperationHuge
            rw [if_neg hset]
            simp only [hr]
            rw [if_pos hcap]
          rw [he]
          exact iff_of_true (by simp) (Or.inr (Or.inl ⟨r, rfl, hcap⟩))
        · by_cases hin : bd.bdmin ≤ x ∧ x ≤ bd.bdmax
          · obtain ⟨hx1, hx2⟩ := hin
            rcases ho : hugeOffset bd.bdmin x with _ | off
            · have he : (bitStringAggOperationHuge bd st x ctr).2.2 =
                  some AggErr.hugeCastFail := by
                unfold bitStringAggOperationHuge bitStringAggCheckHuge
                rw [if_neg hset]
                simp only [hr]
                rw [if_neg hcap, if_pos ⟨hx1, hx2⟩]
                simp only [ho]
              rw [he]
              exact iff_of_true (by simp) (Or.inr (Or.inr (Or.inr (Or.inr rfl))))
            · have he : (bitStringAggOperationHuge bd st x ctr).2.2 = none := by
                unfold bitStringAggOperationHuge bitStringAggCheckHuge
                rw [if_neg hset]
                simp only [hr]
                rw [if_neg hcap, if_pos ⟨hx1, hx2⟩]
                simp only [ho]
              rw [he]
              refine iff_of_false (by simp) ?_
              rintro (h | ⟨r', hr', hgt⟩ | h | h | h)
              · exact Option.noConfusion h
              · injection hr' with hrr; omega
              · omega
              · omega
              · exact Option.noConfusion h
          · have he : (bitStringAggOperationHuge bd st x ctr).2.2 =
                some AggErr.valueOutside := by
              unfold bitStringAggOperationHuge bitStringAggCheckHuge
              rw [if_neg hset]
              simp only [hr]
              rw [if_neg hcap, if_neg hin]
            rw [he]
            refine iff_of_true (by simp) ?_
            rcases not_and_or.mp hin with h | h
            · exact Or.inr (Or.inr (Or.inl (by omega)))
            · exact Or.inr (Or.inr (Or.inr (Or.inl (by omega))))

/-- Witness for C6: input `14` against `min = 10`, `max = 13`. -/
theorem bitstring_agg_operation_error_iff_witness :
    (bitStringAggOperation 8 true { bdmin := 10, bdmax := 13 } initBitAggState 14 0).2.2.isSome
        = true ↔
      1000000000 < getRange 8 true 10 13 ∨ (14 : Int) < 10 ∨ (13 : Int) < 14 :=
  bitstring_agg_operation_error_iff.1 8 true { bdmin := 10, bdmax := 13 } initBitAggState 14 0
    (fun h => absurd h (by decide))

/-! ### Claim C1 -/

theorem bitStringAggOp_set (w : Nat) (s : Bool) (bd : BindDataM) (st : BitAggStateM)
    (x : Int) (ctr : Nat) (hset : st.is_set = true) (hmn : st.min = bd.bdmin)
    (hmx : st.max = bd.bdmax) (hx1 : bd.bdmin ≤ x) (hx2 : x ≤ bd.bdmax) :
    bitStringAggOperation w s bd st x ctr =
      ({ st with value := setBit st.value (offsetVal w s bd.bdmin x) }, ctr, none) := by
  unfold bitStringAggOperation bitStringAggCheck
  rw [if_pos hset, hmn, hmx, if_pos ⟨hx1, hx2⟩]

theorem bitStringAggRun_set (w : Nat) (s : Bool) (bd : BindDataM)
    (hcap : bd.bdmax - bd.bdmin + 1 ≤ 1000000000) :
    ∀ (Y : List Int) (st : BitAggStateM) (ctr : Nat),
      st.is_set = true → st.min = bd.bdmin → st.max = bd.bdmax →
      (∀ x ∈ Y, bd.bdmin ≤ x ∧ x ≤ bd.bdmax) →
      ∃ st', bitStringAggRun w s bd Y st ctr = .ok (st', ctr) ∧
        st'.is_set = true ∧ st'.min = bd.bdmin ∧ st'.max = bd.bdmax ∧
        st'.value.nbits = st.value.nbits ∧
        (∀ i : Nat, st'.value.bits i = true ↔
          st.value.bits i = true ∨ (bd.bdmin + (i : Int)) ∈ Y) := by
  intro Y
  induction Y with
  | nil =>
    intro st ctr h1 h2 h3 _
    exact ⟨st, rfl, h1, h2, h3, rfl, fun i => by simp⟩
  | cons x Y ih =>
    intro st ctr h1 h2 h3 hmem
    obtain ⟨hx1, hx2⟩ := hmem x (List.mem_cons_self x Y)
    have hop := bitStringAggOp_set w s bd st x ctr h1 h2 h3 hx1 hx2
    obtain ⟨st', hrun, p1, p2, p3, p4, p5⟩ :=
      ih ({ st with value := setBit st.value (offsetVal w s bd.bdmin x) }) ctr h1 h2 h3
        (fun y hy => hmem y (List.mem_cons_of_mem x hy))
    refine ⟨st', ?_, p1, p2, p3, p4, ?_⟩
    · simp only [bitStringAggRun, hop]
      exact hrun
    · intro i
      rw [p5 i]
      have hoff : offsetVal w s bd.bdmin x = (x - bd.bdmin).toNat :=
        offsetVal_exact w s hx1 hx2 hcap
      have hiff : i = (x - bd.bdmin).toNat ↔ (bd.bdmin + (i : Int)) = x := by omega
      simp only [setBit, List.mem_cons]
      rw [hoff]
      constructor
      · rintro (hb | hmemY)
        · by_cases hio : i = (x - bd.bdmin).toNat
          · exact Or.inr (Or.inl (hiff.mp hio))
          · rw [if_neg hio] at hb
            exact Or.inl hb
        · exact Or.inr (Or.inr hmemY)
      · rintro (hb | heq | hmemY)
        · by_cases hio : i = (x - bd.bdmin).toNat
          · exact Or.inl (by rw [if_pos hio])
          · exact Or.inl (by rw [if_neg hio]; exact hb)
        · exact Or.inl (by rw [if_pos (hiff.mpr heq)])
        · exact Or.inr hmemY

/-- C1: after `Initialize` and one `Operation` per element of a non-empty
multiset `X ⊆ [min, max]` whose range `max - min + 1` is positive and at most
10⁹ bits, no error is raised, the finalized bitstring has exactly
`max - min + 1` logical bits, and its `i`-th bit is set exactly when
`min + i` occurs in `X`. -/
theorem bitstring_agg_bitmap_correct (w : Nat) (s : Bool) (bd : BindDataM) (X : List Int)
    (hX : X ≠ []) (h1 : 0 < bd.bdmax - bd.bdmin + 1)
    (h2 : bd.bdmax - bd.bdmin + 1 ≤ 1000000000)
    (hmem : ∀ x ∈ X, bd.bdmin ≤ x ∧ x ≤ bd.bdmax) :
    ∃ st' ctr', bitStringAggRun w s bd X initBitAggState 0 = .ok (st', ctr') ∧
      bitStringAggFinalize st' = some st'.value ∧
      st'.value.nbits = (bd.bdmax - bd.bdmin + 1).toNat ∧
      ∀ i : Nat, i < (bd.bdmax - bd.bdmin + 1).toNat →
        (st'.value.bits i = true ↔ (bd.bdmin + (i : Int)) ∈ X) := by
  cases X with
  | nil => exact absurd rfl hX
  | cons x X =>
    obtain ⟨hx1, hx2⟩ := hmem x (List.mem_cons_self x X)
    have hR : getRange w s bd.bdmin bd.bdmax = (bd.bdmax - bd.bdmin + 1).toNat :=
      getRange_exact w s h1 h2
    have hcapn : ¬ 1000000000 < getRange w s bd.bdmin bd.bdmax := by
      rw [hR]; omega
    have hop : bitStringAggOperation w s bd initBitAggState x 0 =
        ({ is_set := true,
           value := setBit (setEmptyBitString (getRange w s bd.bdmin bd.bdmax) 0)
             (offsetVal w s bd.bdmin x),
           min := bd.bdmin, max := bd.bdmax }, 1, none) := by
      unfold bitStringAggOperation bitStringAggCheck
      rw [if_neg (by simp [initBitAggState]), if_neg hcapn, if_pos ⟨hx1, hx2⟩]
    obtain ⟨st', hrun, p1, p2, p3, p4, p5⟩ :=
      bitStringAggRun_set w s bd h2 X
        ({ is_set := true,
           value := setBit (setEmptyBitString (getRange w s bd.bdmin bd.bdmax) 0)
             (offsetVal w s bd.bdmin x),
           min := bd.bdmin, max := bd.bdmax }) 1 rfl rfl rfl
        (fun y hy => hmem y (List.mem_cons_of_mem x hy))
    refine ⟨st', 1, ?_, ?_, ?_, ?_⟩
    · simp only [bitStringAggRun, hop]
      exact hrun
    · unfold bitStringAggFinalize
      rw [if_pos p1]
    · rw [p4]
      exact hR
    · intro i hi
      rw [p5 i]
      have hoff : offsetVal w s bd.bdmin x = (x - bd.bdmin).toNat :=
        offsetVal_exact w s hx1 hx2 h2
      have hiff : i = (x - bd.bdmin).toNat ↔ (bd.bdmin + (i : Int)) = x := by omega
      simp only [setBit, setEmptyBitString, List.mem_cons]
      rw [hoff]
      constructor
      · rintro (hb | hmemX)
        · by_cases hio : i = (x - bd.bdmin).toNat
          · exact Or.inl (hiff.mp hio)
          · rw [if_neg hio] at hb
            exact absurd hb (by simp)
        · exact Or.inr hmemX
      · rintro (heq | hmemX)
        · exact Or.inl (by rw [if_pos (hiff.mpr heq)])
        · exact Or.inr hmemX

/-- Witness for C1: `bitstring_agg(x, 10, 13)` over rows `{10, 12, 13}`. -/
theorem bitstring_agg_bitmap_correct_witness :
    ∃ st' ctr',
      bitStringAggRun 8 true { bdmin := 10, bdmax := 13 } [10, 12, 13] initBitAggState 0 =
        .ok (st', ctr') ∧
      bitStringAggFinalize st' = some st'.value ∧
      st'.value.nbits = ((13 : Int) - 10 + 1).toNat ∧
      ∀ i : Nat, i < ((13 : Int) - 10 + 1).toNat →
        (st'.value.bits i = true ↔ ((10 : Int) + (i : Int)) ∈ [(10 : Int), 12, 13]) :=
  bitstring_agg_bitmap_correct 8 true { bdmin := 10, bdmax := 13 } [10, 12, 13]
    (by decide) (by decide) (by decide) (by decide)

/-! ### Claim C9 -/

/-- C9 counterexample: with `min = 0`, `max = 7` — an 8-bit range whose 2-byte
buffer is inlined by the small-string optimization — and first input `9`, the
first `Operation` performs one allocation and throws out-of-range, yet
`Destroy` on the resulting state frees nothing, contradicting the claim's
"Destroy afterwards still frees the buffer exactly once". -/
theorem bitstring_agg_first_row_counterexample :
    (bitStringAggOperation 8 true { bdmin := 0, bdmax := 7 } initBitAggState 9 0).2.2 =
      some AggErr.valueOutside ∧
    (bitStringAggOperation 8 true { bdmin := 0, bdmax := 7 } initBitAggState 9 0).2.1 = 1 ∧
    bitAggDestroyFreed (fun l => decide (l ≤ 12))
      (bitStringAggOperation 8 true { bdmin := 0, bdmax := 7 } initBitAggState 9 0).1 = [] := by
  refine ⟨?_, ?_, ?_⟩ <;> rfl

/-- C9 (amended): if the first input folded into an unset state lies outside
`[min, max]` while the range is acceptable, `Operation` throws the
out-of-range error only after setting `is_set = true`, copying `min` and
`max`, and performing the single allocation of the empty bitmap; the state is
not rolled back; `Destroy` afterwards frees the buffer exactly once when the
value is not inlined and frees nothing when it is inlined; `Finalize` emits
the all-zero bitmap rather than NULL. -/
theorem bitstring_agg_first_row_not_atomic (w : Nat) (s : Bool) (isInl : Nat → Bool)
    (bd : BindDataM) (st : BitAggStateM) (x : Int) (ctr : Nat)
    (hunset : st.is_set = false)
    (hcap : ¬ 1000000000 < getRange w s bd.bdmin bd.bdmax)
    (hout : x < bd.bdmin ∨ bd.bdmax < x) :
    (bitStringAggOperation w s bd st x ctr).2.2 = some AggErr.valueOutside ∧
    (bitStringAggOperation w s bd st x ctr).1.is_set = true ∧
    (bitStringAggOperation w s bd st x ctr).1.min = bd.bdmin ∧
    (bitStringAggOperation w s bd st x ctr).1.max = bd.bdmax ∧
    (bitStringAggOperation w s bd st x ctr).2.1 = ctr + 1 ∧
    (bitStringAggOperation w s bd st x ctr).1.value.nbits =
      getRange w s bd.bdmin bd.bdmax ∧
    (bitStringAggOperation w s bd st x ctr).1.value.ptr = ctr ∧
    (∀ i, (bitStringAggOperation w s bd st x ctr).1.value.bits i = false) ∧
    bitAggDestroyFreed isInl (bitStringAggOperation w s bd st x ctr).1 =
      (if isInl (lenBytes (getRange w s bd.bdmin bd.bdmax)) = false then [ctr] else []) ∧
    bitStringAggFinalize (bitStringAggOperation w s bd st x ctr).1 =
      some (bitStringAggOperation w s bd st x ctr).1.value := by
  have hnotset : ¬ st.is_set = true := by rw [hunset]; simp
  have hnin : ¬ (bd.bdmin ≤ x ∧ x ≤ bd.bdmax) := by
    rcases hout with h | h
    · exact fun hc => absurd hc.1 (by omega)
    · exact fun hc => absurd hc.2 (by omega)
  have hop : bitStringAggOperation w s bd st x ctr =
      ({ is_set := true, value := setEmptyBitString (getRange w s bd.bdmin bd.bdmax) ctr,
         min := bd.bdmin, max := bd.bdmax }, ctr + 1, some AggErr.valueOutside) := by
    unfold bitStringAggOperation bitStringAggCheck
    rw [if_neg hnotset, if_neg hcap, if_neg hnin]
  rw [hop]
  refine ⟨rfl, rfl, rfl, rfl, rfl, rfl, rfl, fun i => rfl, ?_, rfl⟩
  unfold bitAggDestroyFreed
  by_cases hinl : isInl (lenBytes (getRange w s bd.bdmin bd.bdmax)) = false
  · rw [if_pos ⟨rfl, hinl⟩, if_pos hinl]
    rfl
  · rw [if_neg (fun hc => hinl hc.2), if_neg hinl]

/-- Witness for C9 (amended) at `min = 0`, `max = 99` (non-inlined 14-byte
buffer), first input `100`. -/
theorem bitstring_agg_first_row_not_atomic_witness :
    (bitStringAggOperation 8 true { bdmin := 0, bdmax := 99 } initBitAggState 100 0).2.2 =
      some AggErr.valueOutside ∧
    (bitStringAggOperation 8 true { bdmin := 0, bdmax := 99 } initBitAggState 100 0).1.is_set
      = true ∧
    (bitStringAggOperation 8 true { bdmin := 0, bdmax := 99 } initBitAggState 100 0).1.min
      = (0 : Int) ∧
    (bitStringAggOperation 8 true { bdmin := 0, bdmax := 99 } initBitAggState 100 0).1.max
      = (99 : Int) ∧
    (bitStringAggOperation 8 true { bdmin := 0, bdmax := 99 } initBitAggState 100 0).2.1 = 1 ∧
    (bitStringAggOperation 8 true { bdmin := 0, bdmax := 99 } initBitAggState 100 0).1.value.nbits
      = getRange 8 true 0 99 ∧
    (bitStringAggOperation 8 true { bdmin := 0, bdmax := 99 } initBitAggState 100 0).1.value.ptr
      = 0 ∧
    (∀ i, (bitStringAggOperation 8 true { bdmin := 0, bdmax := 99 } initBitAggState
      100 0).1.value.bits i = false) ∧
    bitAggDestroyFreed (fun l => decide (l ≤ 12))
      (bitStringAggOperation 8 true { bdmin := 0, bdmax := 99 } initBitAggState 100 0).1 =
      (if (fun l => decide (l ≤ 12)) (lenBytes (getRange 8 true 0 99)) = false
        then [0] else []) ∧
    bitStringAggFinalize
      (bitStringAggOperation 8 true { bdmin := 0, bdmax := 99 } initBitAggState 100 0).1 =
      some (bitStringAggOperation 8 true { bdmin := 0, bdmax := 99 } initBitAggState
        100 0).1.value :=
  bitstring_agg_first_row_not_atomic 8 true (fun l => decide (l ≤ 12))
    { bdmin := 0, bdmax := 99 } initBitAggState 100 0 rfl (by decide) (Or.inr (by decide))

/-! ### Claim C10 -/

/-- C10: for both the bitstring bitwise aggregates and the range-bitmap
aggregate, `Combine` of a set source holding a non-inlined buffer into an
unset target copies the payload into a freshly allocated buffer owned by the
target and leaves the source untouched; `Destroy` on source and target then
releases two distinct allocations and never frees the same buffer twice. -/
theorem combine_duplicates_buffer (isInl : Nat → Bool) (exec : StrVal → StrVal → StrVal)
    (source target : BitStrStateM) (srcA tgtA : BitAggStateM) (ctr ctrA : Nat)
    (h1 : source.is_set = true) (h2 : target.is_set = false)
    (h3 : isInl (strSize source.value) = false) (h4 : source.value.ptr < ctr)
    (g1 : srcA.is_set = true) (g2 : tgtA.is_set = false)
    (g3 : isInl (strSize srcA.value) = false) (g4 : srcA.value.ptr < ctrA) :
    ((bitStringBitwiseCombine isInl exec source target ctr).1 = source ∧
     (bitStringBitwiseCombine isInl exec source target ctr).2.1.is_set = true ∧
     (bitStringBitwiseCombine isInl exec source target ctr).2.1.value.nbits =
       source.value.nbits ∧
     (bitStringBitwiseCombine isInl exec source target ctr).2.1.value.bits =
       source.value.bits ∧
     (bitStringBitwiseCombine isInl exec source target ctr).2.1.value.ptr = ctr ∧
     (bitStringBitwiseCombine isInl exec source target ctr).2.2 = ctr + 1 ∧
     bitStrDestroyFreed isInl source = [source.value.ptr] ∧
     bitStrDestroyFreed isInl (bitStringBitwiseCombine isInl exec source target ctr).2.1 =
       [ctr] ∧
     source.value.ptr ≠ ctr) ∧
    ((bitStringAggCombine isInl srcA tgtA ctrA).1 = srcA ∧
     (bitStringAggCombine isInl srcA tgtA ctrA).2.1.is_set = true ∧
     (bitStringAggCombine isInl srcA tgtA ctrA).2.1.value.nbits = srcA.value.nbits ∧
     (bitStringAggCombine isInl srcA tgtA ctrA).2.1.value.bits = srcA.value.bits ∧
     (bitStringAggCombine isInl srcA tgtA ctrA).2.1.value.ptr = ctrA ∧
     (bitStringAggCombine isInl srcA tgtA ctrA).2.2 = ctrA + 1 ∧
     bitAggDestroyFreed isInl srcA = [srcA.value.ptr] ∧
     bitAggDestroyFreed isInl (bitStringAggCombine isInl srcA tgtA ctrA).2.1 = [ctrA] ∧
     srcA.value.ptr ≠ ctrA) := by
  have hc1 : bitStringBitwiseCombine isInl exec source target ctr =
      (source,
       { is_set := true, value := { source.value with ptr := ctr } },
       ctr + 1) := by
    unfold bitStringBitwiseCombine bitStringBitwiseAssign
    rw [if_neg (by simp [h1]), if_pos h2, if_neg (by simp [h3])]
  have hc2 : bitStringAggCombine isInl srcA tgtA ctrA =
      (srcA,
       { is_set := true, value := { srcA.value with ptr := ctrA },
         min := tgtA.min, max := tgtA.max },
       ctrA + 1) := by
    unfold bitStringAggCombine bitStringAggAssign
    rw [if_neg (by simp [g1]), if_pos g2, if_neg (by simp [g3])]
  constructor
  · rw [hc1]
    refine ⟨rfl, rfl, rfl, rfl, rfl, rfl, ?_, ?_, Nat.ne_of_lt h4⟩
    · unfold bitStrDestroyFreed
      rw [if_pos ⟨h1, h3⟩]
    · unfold bitStrDestroyFreed
      rw [if_pos ⟨rfl, h3⟩]
  · rw [hc2]
    refine ⟨rfl, rfl, rfl, rfl, rfl, rfl, ?_, ?_, Nat.ne_of_lt g4⟩
    · unfold bitAggDestroyFreed
      rw [if_pos ⟨g1, g3⟩]
    · unfold bitAggDestroyFreed
      rw [if_pos ⟨rfl, g3⟩]

/-- Witness for C10: a 100-bit (14-byte, non-inlined) source combined into an
unset target at allocation counter 5 on both aggregate kinds. -/
theorem combine_duplicates_buffer_witness :
    bitStrDestroyFreed (fun l => decide (l ≤ 12))
      { is_set := true, value := { nbits := 100, bits := fun _ => false, ptr := 0 } } = [0] ∧
    bitStrDestroyFreed (fun l => decide (l ≤ 12))
      (bitStringBitwiseCombine (fun l => decide (l ≤ 12)) (fun a _ => a)
        { is_set := true, value := { nbits := 100, bits := fun _ => false, ptr := 0 } }
        { is_set := false, value := { nbits := 0, bits := fun _ => false, ptr := 0 } }
        5).2.1 = [5] ∧
    (0 : Nat) ≠ 5 := by
  have h := (combine_duplicates_buffer (fun l => decide (l ≤ 12)) (fun a _ => a)
    { is_set := true, value := { nbits := 100, bits := fun _ => false, ptr := 0 } }
    { is_set := false, value := { nbits := 0, bits := fun _ => false, ptr := 0 } }
    { is_set := true, value := { nbits := 100, bits := fun _ => false, ptr := 0 },
      min := 0, max := 0 }
    { is_set := false, value := { nbits := 0, bits := fun _ => false, ptr := 0 },
      min := 0, max := 0 }
    5 5 rfl rfl (by decide) (by decide) rfl rfl (by decide) (by decide)).1
  exact ⟨h.2.2.2.2.2.2.1, h.2.2.2.2.2.2.2.1, h.2.2.2.2.2.2.2.2⟩

end DuckDB
